import Mathlib

/-!
Verification of the JADU_MSME inventory/operations backend.

The definitions below are a shallow embedding of the JavaScript backend
(`src/backend/src/services/inventory.service.js`,
`src/backend/src/controllers/inventory.controller.js`).  Database rows are
modelled as Lean lists of structures, timestamps as integers, and each
service method as a pure function of the database contents.  The Python
agent service (forecaster, supplier ranker, decision engine, orchestration)
is not part of the available sources; the corresponding definitions are
modelled from the specification and are marked as such in their doc
comments.
-/

namespace JaduMsme

/-- A row of the `inventoryBatch` table: a batch of some item with a
quantity and an expiry date (timestamps are modelled as integers). -/
structure InventoryBatch where
  id : Nat
  itemId : Nat
  batchNumber : Nat
  quantity : Int
  expiryDate : Int
  deriving DecidableEq

/-- A row of the `item` table; `deletedAt` is the soft-delete marker. -/
structure Item where
  id : Nat
  deletedAt : Option Int
  deriving DecidableEq

/-- The shape returned by `InventoryService.getAllItems`: the item together
with its computed `currentStock`. -/
structure ItemStock where
  itemId : Nat
  currentStock : Int
  deriving DecidableEq

/-- Ordering of batches by expiry date, used by the Prisma
`orderBy: \x7b expiryDate: "asc" \x7d` clauses. -/
def expiryLE (a b : InventoryBatch) : Prop := a.expiryDate ≤ b.expiryDate

instance : DecidableRel expiryLE := fun a b =>
  inferInstanceAs (Decidable (a.expiryDate ≤ b.expiryDate))

instance : IsTotal InventoryBatch expiryLE :=
  ⟨fun a b => Int.le_total a.expiryDate b.expiryDate⟩

instance : IsTrans InventoryBatch expiryLE :=
  ⟨fun _ _ _ h h' => le_trans h h'⟩

/-- `InventoryService.getExpiringBatches(days)`: all batches with positive
quantity whose expiry date lies between `now` and `now + days` (both bounds
inclusive, per the Prisma `gte`/`lte` filter), ordered ascending by expiry
date. -/
def getExpiringBatches (now days : Int) (db : List InventoryBatch) : List InventoryBatch :=
  (db.filter fun b =>
      decide (0 < b.quantity ∧ now ≤ b.expiryDate ∧ b.expiryDate ≤ now + days)).insertionSort
    expiryLE

/-- `InventoryService.getAllItems`: for every non-deleted item, the current
stock is the sum of the quantities of the batches of that item fetched with
the filter `quantity: \x7b gt: 0 \x7d` (no expiry condition appears in the
query). -/
def getAllItems (items : List Item) (db : List InventoryBatch) : List ItemStock :=
  (items.filter fun it => it.deletedAt = none).map fun it =>
    ⟨it.id,
      ((db.filter fun b => b.itemId = it.id ∧ 0 < b.quantity).map (·.quantity)).sum⟩

/-- The stock value described by the specification sentence "Stock is the
sum of non-expired, positive-quantity batch quantities": only batches whose
expiry date has not passed contribute. -/
def nonExpiredStock (now : Int) (db : List InventoryBatch) (itemId : Nat) : Int :=
  ((db.filter fun b => b.itemId = itemId ∧ 0 < b.quantity ∧ now ≤ b.expiryDate).map
    (·.quantity)).sum

/-- The stock value actually computed by `getAllItems`: every
positive-quantity batch of the item contributes, expired or not. -/
def positiveStock (db : List InventoryBatch) (itemId : Nat) : Int :=
  ((db.filter fun b => b.itemId = itemId ∧ 0 < b.quantity).map (·.quantity)).sum

/-- `InventoryController.getExpiring`: the `days` query parameter is run
through `parseInt(...) || 7`.  The argument `none` stands for an absent or
non-numeric parameter (`parseInt` yields `NaN`); a parsed `0` is falsy in
JavaScript and also falls back to `7`. -/
def parseDaysQuery (q : Option Int) : Int :=
  match q with
  | none => 7
  | some n => if n = 0 then 7 else n

/-- `InventoryController.getExpiring` endpoint: parse the `days` query
parameter and delegate to `getExpiringBatches`. -/
def getExpiring (q : Option Int) (now : Int) (db : List InventoryBatch) :
    List InventoryBatch :=
  getExpiringBatches now (parseDaysQuery q) db

/-- One entry of the allocation list built by `allocateStockFEFO`. -/
structure AllocEntry where
  batchId : Nat
  qty : Int
  expiry : Int
  batchNumber : Nat
  deriving DecidableEq

/-- Result shape of `allocateStockFEFO`: `shortfall` is present exactly on
the infeasible path. -/
structure FefoResult where
  feasible : Bool
  shortfall : Option Int
  allocation : List AllocEntry
  deriving DecidableEq

/-- The `for (const batch of batches)` loop of `allocateStockFEFO`: walk
the batches, stop as soon as `remaining <= 0`, and take
`min(batch.quantity, remaining)` from each visited batch.  Returns the
allocation list together with the final value of `remaining`. -/
def fefoGo : Int → List InventoryBatch → List AllocEntry × Int
  | r, [] => ([], r)
  | r, b :: bs =>
    if r ≤ 0 then ([], r)
    else
      (⟨b.id, min b.quantity r, b.expiryDate, b.batchNumber⟩ ::
          (fefoGo (r - min b.quantity r) bs).1,
        (fefoGo (r - min b.quantity r) bs).2)

/-- The allocation entry that takes a batch in full. -/
def fullEntry (b : InventoryBatch) : AllocEntry :=
  ⟨b.id, b.quantity, b.expiryDate, b.batchNumber⟩

/-- The batch list fetched by `allocateStockFEFO`: positive-quantity
batches of the item, ordered ascending by expiry date (FEFO). -/
def fefoBatches (db : List InventoryBatch) (itemId : Nat) : List InventoryBatch :=
  (db.filter fun b => b.itemId = itemId ∧ 0 < b.quantity).insertionSort expiryLE

/-- `InventoryService.allocateStockFEFO(itemId, qtyNeeded)`. -/
def allocateStockFEFO (db : List InventoryBatch) (itemId : Nat) (qtyNeeded : Int) :
    FefoResult :=
  let p := fefoGo qtyNeeded (fefoBatches db itemId)
  if 0 < p.2 then ⟨false, some p.2, p.1⟩ else ⟨true, none, p.1⟩

/-- Sum of the allocated quantities of an allocation list. -/
def allocSum (l : List AllocEntry) : Int := (l.map (·.qty)).sum

/-- A row of the `inventoryTransaction` table as created by
`InventoryController.adjustStock` (`changeType` is always
`ADJUSTMENT` there, so it is inlined as a string field). -/
structure InventoryTxn where
  itemId : Nat
  batchId : Nat
  changeType : String
  quantityChange : Int
  referenceId : String
  deriving DecidableEq

/-- The database state touched by `adjustStock`: the batch table and the
transaction log. -/
structure DBState where
  batches : List InventoryBatch
  txns : List InventoryTxn
  deriving DecidableEq

/-- Prisma `inventoryBatch.findUnique(\x7b where: \x7b id \x7d \x7d)`:
batch ids are unique, so the first match models the unique row. -/
def findBatch (batchId : Nat) (l : List InventoryBatch) : Option InventoryBatch :=
  l.find? fun b => b.id = batchId

/-- Prisma `inventoryBatch.update`: replace the quantity of the row with
the given id. -/
def setBatchQty (batchId : Nat) (q : Int) : List InventoryBatch → List InventoryBatch
  | [] => []
  | b :: bs =>
    if b.id = batchId then { b with quantity := q } :: bs
    else b :: setBatchQty batchId q bs

/-- Outcome of `adjustStock`: the HTTP status and the database state after
the request (Prisma `$transaction` rolls the state back on any throw, so
the error paths return the input state unchanged). -/
structure AdjustOutcome where
  status : Nat
  state : DBState
  deriving DecidableEq

/-- `InventoryController.adjustStock`: find the batch, reject a missing
batch or a negative resulting quantity with status 400 (transaction rolled
back), otherwise update the batch quantity and append one ADJUSTMENT
transaction record. -/
def adjustStock (st : DBState) (itemId batchId : Nat) (quantityChange : Int)
    (reason : Option String) : AdjustOutcome :=
  match findBatch batchId st.batches with
  | none => ⟨400, st⟩
  | some b =>
    let newQty := b.quantity + quantityChange
    if newQty < 0 then ⟨400, st⟩
    else
      ⟨200,
        ⟨setBatchQty batchId newQty st.batches,
          st.txns ++ [⟨itemId, batchId, "ADJUSTMENT", quantityChange,
            reason.getD "MANUAL"⟩]⟩⟩

/-- Modelled from the spec: the Python agent's `forecaster.py` is not among
the available sources (only its test-suite README is).  A sales record is a
historical per-item, per-day quantity. -/
structure SalesRecord where
  date : Int
  quantitySold : ℚ
  deriving DecidableEq

/-- Forecast method flag: statistical model or deterministic fallback. -/
inductive ForecastMethod
  | MODEL
  | FALLBACK
  deriving DecidableEq

/-- Result of `Forecaster.predict`. -/
structure ForecastResult where
  predictedDemand : ℚ
  method : ForecastMethod
  horizonDays : Nat
  deriving DecidableEq

/-- Modelled from the spec: minimum number of distinct history days for the
model path (policy threshold, spec example value 14). -/
def minHistoryDays : Nat := 14

/-- Number of distinct days covered by a sales history. -/
def distinctDays (h : List SalesRecord) : Nat := ((h.map (·.date)).dedup).length

/-- Moving average of the history, 1 unit/day on empty history (the
fallback's fixed minimal default). -/
def histAvg (h : List SalesRecord) : ℚ :=
  if h.isEmpty then 1 else (h.map (·.quantitySold)).sum / h.length

/-- Least-squares slope of a series over day indices 0,…,n−1 (a zero
denominator yields 0 in ℚ). -/
def lsSlope (ys : List ℚ) : ℚ :=
  ((ys.length : ℚ) * (ys.enum.map fun p => (p.1 : ℚ) * p.2).sum -
      ((List.range ys.length).map fun i => (i : ℚ)).sum * ys.sum) /
    ((ys.length : ℚ) * ((List.range ys.length).map fun i => (i : ℚ) * i).sum -
      ((List.range ys.length).map fun i => (i : ℚ)).sum *
        ((List.range ys.length).map fun i => (i : ℚ)).sum)

/-- Least-squares intercept of a series over day indices 0,…,n−1. -/
def lsIntercept (ys : List ℚ) : ℚ :=
  (ys.sum - lsSlope ys * ((List.range ys.length).map fun i => (i : ℚ)).sum) /
    (ys.length : ℚ)

/-- Modelled from the spec: trend projection of total demand over the
horizon — the fitted trend line evaluated at the next `horizon` day
indices (seasonality omitted; it does not affect the clamping claim). -/
def rawModelForecast (h : List SalesRecord) (horizon : Nat) : ℚ :=
  ((List.range horizon).map fun i =>
    lsIntercept (h.map (·.quantitySold)) +
      lsSlope (h.map (·.quantitySold)) * ((h.length + i : Nat) : ℚ)).sum

/-- The unclamped prediction: trend model with enough distinct history
days, moving-average fallback otherwise. -/
def rawForecast (h : List SalesRecord) (horizon : Nat) : ℚ :=
  if minHistoryDays ≤ distinctDays h then rawModelForecast h horizon
  else (horizon : ℚ) * histAvg h

/-- Modelled from the spec: `Forecaster.predict` — pick the model path or
the fallback path and clamp any negative predicted value to 0, the clamp
being the same operation on both paths. -/
def predict (h : List SalesRecord) (horizon : Nat) : ForecastResult :=
  if minHistoryDays ≤ distinctDays h then
    ⟨max 0 (rawModelForecast h horizon), .MODEL, horizon⟩
  else
    ⟨max 0 ((horizon : ℚ) * histAvg h), .FALLBACK, horizon⟩

/-- Modelled from the spec: `supplier_ranker.py` is not among the available
sources.  A candidate supplier with possibly missing scoring attributes. -/
structure Supplier where
  supplierId : Nat
  reliabilityScore : Option ℚ
  avgLeadTimeDays : Option ℚ
  priceIndex : Option ℚ
  deriving DecidableEq

/-- Binary escalation flag attached to decisions and ranking requests. -/
inductive Urgency
  | NORMAL
  | URGENT
  deriving DecidableEq

/-- A scored, ranked supplier as returned by `SupplierRanker.rank`. -/
structure SupplierScore where
  supplierId : Nat
  score : ℚ
  rank : Nat
  deriving DecidableEq

/-- The error signalled on an empty candidate set. -/
inductive RankError
  | NoSuppliersFound
  deriving DecidableEq

/-- Modelled from the spec: lead-time weight, raised relative to the price
weight under URGENT urgency. -/
def leadWeight : Urgency → ℚ
  | .NORMAL => 1 / 5
  | .URGENT => 2 / 5

/-- Modelled from the spec: price weight, lowered under URGENT urgency. -/
def priceWeight : Urgency → ℚ
  | .NORMAL => 3 / 10
  | .URGENT => 1 / 10

/-- Modelled from the spec: reliability weight (above the price weight). -/
def reliabilityWeight : ℚ := 1 / 2

/-- Modelled from the spec: rule-based weighted score with neutral defaults
for missing attributes (reliability 1/2, lead time 7 days, price index 1);
higher reliability raises the score, longer lead time and higher price
lower it. -/
def supplierRawScore (u : Urgency) (s : Supplier) : ℚ :=
  reliabilityWeight * s.reliabilityScore.getD (1 / 2) -
    leadWeight u * s.avgLeadTimeDays.getD 7 / 30 -
    priceWeight u * s.priceIndex.getD 1

/-- Ranking order: descending score, ties broken by ascending supplier
id. -/
def rankRel (u : Urgency) (a b : Supplier) : Prop :=
  supplierRawScore u b < supplierRawScore u a ∨
    (supplierRawScore u a = supplierRawScore u b ∧ a.supplierId ≤ b.supplierId)

instance (u : Urgency) : DecidableRel (rankRel u) := fun _ _ =>
  inferInstanceAs (Decidable (_ ∨ _))

instance (u : Urgency) : IsTotal Supplier (rankRel u) :=
  ⟨fun a b => by
    rcases lt_trichotomy (supplierRawScore u a) (supplierRawScore u b) with h | h | h
    · exact Or.inr (Or.inl h)
    · rcases Nat.le_total a.supplierId b.supplierId with h' | h'
      · exact Or.inl (Or.inr ⟨h, h'⟩)
      · exact Or.inr (Or.inr ⟨h.symm, h'⟩)
    · exact Or.inl (Or.inl h)⟩

instance (u : Urgency) : IsTrans Supplier (rankRel u) :=
  ⟨fun a b c hab hbc => by
    rcases hab with h1 | ⟨h1, h1'⟩ <;> rcases hbc with h2 | ⟨h2, h2'⟩
    · exact Or.inl (lt_trans h2 h1)
    · exact Or.inl (by rw [← h2]; exact h1)
    · exact Or.inl (by rw [h1]; exact h2)
    · exact Or.inr ⟨h1.trans h2, le_trans h1' h2'⟩⟩

/-- Assign contiguous ranks starting at `i` to an already-sorted supplier
list, scoring each supplier. -/
def assignRanks (u : Urgency) : Nat → List Supplier → List SupplierScore
  | _, [] => []
  | i, s :: ss => ⟨s.supplierId, supplierRawScore u s, i⟩ :: assignRanks u (i + 1) ss

/-- Modelled from the spec: `SupplierRanker.rank` — signal
`NoSuppliersFound` on an empty candidate set, otherwise sort descending by
score (ties by ascending supplier id) and assign 1-based ranks. -/
def rank (u : Urgency) (cands : List Supplier) : Except RankError (List SupplierScore) :=
  if cands.isEmpty then .error .NoSuppliersFound
  else .ok (assignRanks u 1 (cands.insertionSort (rankRel u)))

/-- Modelled from the spec: `decision_engine.py` is not among the available
sources.  Task status; the stuck-task rule looks only at "in progress". -/
inductive TaskStatus
  | inProgress
  | pending
  | completed
  deriving DecidableEq

/-- An in-flight operational task (timestamps and durations in minutes). -/
structure Task where
  taskId : Nat
  status : TaskStatus
  startedAt : ℚ
  expectedDurationMinutes : ℚ
  deriving DecidableEq

/-- Decision types emitted by the decision engine. -/
inductive DecisionType
  | LOW_STOCK
  | BOTTLENECK
  | STUCK_TASK
  | EXPIRY_WARNING
  | SUPPLIER_RECOMMENDATION
  deriving DecidableEq

/-- A decision emitted for a task (the fields relevant to the task
rules). -/
structure Decision where
  dtype : DecisionType
  urgency : Urgency
  taskId : Nat
  deriving DecidableEq

/-- Modelled from the spec: the fixed stuck-task multiplier (2×). -/
def stuckMultiplier : ℚ := 2

/-- Elapsed time of a task at time `now`, in minutes. -/
def elapsedMinutes (now : ℚ) (t : Task) : ℚ := now - t.startedAt

/-- The decision emitted for a stuck task: STUCK_TASK with URGENT
urgency. -/
def stuckDecision (t : Task) : Decision := ⟨.STUCK_TASK, .URGENT, t.taskId⟩

/-- Modelled from the spec: the stuck-task fallback rule — flag every
"in progress" task whose elapsed time has reached `stuckMultiplier ×
expectedDurationMinutes` (the boundary itself is flagged). -/
def stuckTaskDecisions (now : ℚ) (tasks : List Task) : List Decision :=
  (tasks.filter fun t =>
    decide (t.status = TaskStatus.inProgress ∧
      stuckMultiplier * t.expectedDurationMinutes ≤ elapsedMinutes now t)).map
    stuckDecision

/-- Modelled from the spec: the bottleneck detector's minimum sample
size. -/
def bottleneckMinSamples : Nat := 10

/-- Average of a rational series (0 on the empty list). -/
def qAvg (l : List ℚ) : ℚ := l.sum / l.length

/-- Modelled from the spec: the statistical bottleneck detector — skipped
entirely below the minimum historical sample size, otherwise flags tasks
whose elapsed time is an outlier against the historical average. -/
def bottleneckDecisions (durationHistory : List ℚ) (now : ℚ) (tasks : List Task) :
    List Decision :=
  if durationHistory.length < bottleneckMinSamples then []
  else
    (tasks.filter fun t => decide (3 * qAvg durationHistory < elapsedMinutes now t)).map
      fun t => ⟨.BOTTLENECK, .NORMAL, t.taskId⟩

/-- The task-telemetry sub-evaluations of the decision engine: the
anomaly detector (sample-size gated) plus the always-on stuck-task
fallback rule. -/
def taskDecisions (durationHistory : List ℚ) (now : ℚ) (tasks : List Task) :
    List Decision :=
  bottleneckDecisions durationHistory now tasks ++ stuckTaskDecisions now tasks

/-- Modelled from the spec: the cycle orchestrator (`main.py`) is not among
the available sources.  Observable events of the trigger lifecycle: a
cycle trigger (scheduled or manual) and the completion of the running
cycle. -/
inductive CycleEvent
  | trigger
  | finish
  deriving DecidableEq

/-- Status returned to a trigger: started, or rejected because a cycle is
already running. -/
inductive TriggerStatus
  | started
  | alreadyRunning
  deriving DecidableEq

/-- Orchestrator state: the number of cycles currently executing. -/
structure OrchState where
  active : Nat
  deriving DecidableEq

/-- Modelled from the spec: the single-flight guard — a trigger starts a
cycle only when none is executing and is otherwise rejected with a
"cycle already running" status; a finish event ends the running cycle. -/
def cycleStep (s : OrchState) : CycleEvent → OrchState × Option TriggerStatus
  | .trigger =>
    if s.active = 0 then (⟨s.active + 1⟩, some .started)
    else (s, some .alreadyRunning)
  | .finish => (⟨s.active - 1⟩, none)

/-- The orchestrator starts with no cycle in flight. -/
def initialOrchState : OrchState := ⟨0⟩

/-- The orchestrator state reached after a sequence of trigger/finish
events. -/
def runEvents (evs : List CycleEvent) : OrchState :=
  evs.foldl (fun s e => (cycleStep s e).1) initialOrchState

end JaduMsme

namespace JaduMsme

/-- C2: `getExpiringBatches(days)` returns exactly the batches with positive
quantity whose expiry date lies between `now` and `now + days` inclusive
(already-expired batches are excluded by the `gte: now` bound), ordered
ascending by expiry date. -/
theorem getExpiringBatches_spec (now days : Int) (db : List InventoryBatch) :
    (getExpiringBatches now days db).Sorted expiryLE ∧
      (getExpiringBatches now days db).Perm
        (db.filter fun b =>
          decide (0 < b.quantity ∧ now ≤ b.expiryDate ∧ b.expiryDate ≤ now + days)) ∧
      ∀ b, b ∈ getExpiringBatches now days db ↔
        b ∈ db ∧ 0 < b.quantity ∧ now ≤ b.expiryDate ∧ b.expiryDate ≤ now + days := by
  refine ⟨List.sorted_insertionSort expiryLE _, List.perm_insertionSort expiryLE _, ?_⟩
  intro b
  rw [getExpiringBatches, List.mem_insertionSort, List.mem_filter]
  simp

/-- C1 counterexample: an expired batch (expiry 0, now 10) with positive
quantity still contributes its full quantity to the `currentStock` computed
by `getAllItems`, while the specification's non-expired stock is 0. -/
theorem getAllItems_expired_batch_counterexample :
    ∃ o ∈ getAllItems [⟨1, none⟩] [⟨1, 1, 1, 5, 0⟩],
      o.currentStock ≠ nonExpiredStock 10 [⟨1, 1, 1, 5, 0⟩] o.itemId := by
  decide

/-- C1 (amended): for every entry returned by `getAllItems`, `currentStock`
equals the sum of the quantities of all positive-quantity batches of that
item, with no expiry condition, and the entry comes from a non-deleted
item. -/
theorem getAllItems_stock (items : List Item) (db : List InventoryBatch)
    (o : ItemStock) (ho : o ∈ getAllItems items db) :
    o.currentStock = positiveStock db o.itemId ∧
      ∃ it ∈ items, it.deletedAt = none ∧ it.id = o.itemId := by
  rw [getAllItems, List.mem_map] at ho
  obtain ⟨it, hit, rfl⟩ := ho
  rw [List.mem_filter] at hit
  refine ⟨rfl, it, hit.1, ?_, rfl⟩
  simpa using hit.2

/-- C1 witness: the amended theorem evaluated on a one-item database. -/
theorem getAllItems_stock_witness :
    (⟨1, (5 : Int)⟩ : ItemStock).currentStock = positiveStock [⟨1, 1, 1, 5, 0⟩] 1 ∧
      ∃ it ∈ [(⟨1, none⟩ : Item)], it.deletedAt = none ∧ it.id = 1 :=
  getAllItems_stock [⟨1, none⟩] [⟨1, 1, 1, 5, 0⟩] ⟨1, 5⟩ (by decide)

/-- C10: the expiring-stock endpoint uses a 7-day window when the `days`
query parameter is absent, non-numeric, or parses to `0`; a nonzero parsed
value is passed through to `getExpiringBatches` unchanged. -/
theorem getExpiring_window (q : Option Int) (now : Int) (db : List InventoryBatch) :
    ((q = none ∨ q = some 0) → getExpiring q now db = getExpiringBatches now 7 db) ∧
      ∀ n : Int, n ≠ 0 → getExpiring (some n) now db = getExpiringBatches now n db := by
  constructor
  · rintro (rfl | rfl) <;> simp [getExpiring, parseDaysQuery]
  · intro n hn
    simp [getExpiring, parseDaysQuery, hn]

/-- C10 witness: the window defaults evaluated on concrete queries. -/
theorem getExpiring_window_witness :
    getExpiring none 0 [] = getExpiringBatches 0 7 [] ∧
      getExpiring (some 3) 0 [] = getExpiringBatches 0 3 [] :=
  ⟨(getExpiring_window none 0 []).1 (Or.inl rfl),
   (getExpiring_window (some 3) 0 []).2 3 (by decide)⟩

theorem fefoGo_neg (r : Int) (L : List InventoryBatch) (hr : r ≤ 0) :
    fefoGo r L = ([], r) := by
  cases L with
  | nil => rfl
  | cons b bs => simp [fefoGo, hr]

theorem allocSum_cons (e : AllocEntry) (l : List AllocEntry) :
    allocSum (e :: l) = e.qty + allocSum l := by
  simp [allocSum]

theorem fefoGo_snd_eq (r : Int) (L : List InventoryBatch) :
    (fefoGo r L).2 = r - allocSum (fefoGo r L).1 := by
  induction L generalizing r with
  | nil => simp [fefoGo, allocSum]
  | cons b bs ih =>
    by_cases hr : r ≤ 0
    · simp [fefoGo, hr, allocSum]
    · simp only [fefoGo, if_neg hr, allocSum_cons]
      rw [ih]
      ring

theorem fefoGo_mem (r : Int) (L : List InventoryBatch) :
    ∀ e ∈ (fefoGo r L).1, ∃ b ∈ L, e.batchId = b.id ∧ e.expiry = b.expiryDate ∧
      e.batchNumber = b.batchNumber ∧ e.qty ≤ b.quantity := by
  induction L generalizing r with
  | nil => simp [fefoGo]
  | cons b bs ih =>
    by_cases hr : r ≤ 0
    · simp [fefoGo, hr]
    · intro e he
      simp only [fefoGo, if_neg hr, List.mem_cons] at he
      rcases he with rfl | he
      · exact ⟨b, List.mem_cons_self _ _, rfl, rfl, rfl, min_le_left _ _⟩
      · obtain ⟨b', hb', h⟩ := ih _ e he
        exact ⟨b', List.mem_cons_of_mem _ hb', h⟩

theorem fefoGo_qty_pos (r : Int) (L : List InventoryBatch)
    (hq : ∀ b ∈ L, 0 < b.quantity) :
    ∀ e ∈ (fefoGo r L).1, 0 < e.qty := by
  induction L generalizing r with
  | nil => simp [fefoGo]
  | cons b bs ih =>
    by_cases hr : r ≤ 0
    · simp [fefoGo, hr]
    · intro e he
      simp only [fefoGo, if_neg hr, List.mem_cons] at he
      rcases he with rfl | he
      · exact lt_min (hq b (List.mem_cons_self _ _)) (lt_of_not_le hr)
      · exact ih _ (fun b' hb' => hq b' (List.mem_cons_of_mem _ hb')) e he

theorem fefoGo_allocSum_nonneg (r : Int) (L : List InventoryBatch)
    (hq : ∀ b ∈ L, 0 < b.quantity) : 0 ≤ allocSum (fefoGo r L).1 := by
  have h := fefoGo_qty_pos r L hq
  rw [allocSum]
  refine List.sum_nonneg ?_
  intro x hx
  rw [List.mem_map] at hx
  obtain ⟨e, he, rfl⟩ := hx
  exact le_of_lt (h e he)

theorem fefoGo_allocSum_le (r : Int) (L : List InventoryBatch)
    (hq : ∀ b ∈ L, 0 ≤ b.quantity) :
    allocSum (fefoGo r L).1 ≤ (L.map (·.quantity)).sum := by
  induction L generalizing r with
  | nil => simp [fefoGo, allocSum]
  | cons b bs ih =>
    have hb0 : 0 ≤ b.quantity := hq b (List.mem_cons_self _ _)
    have hbs : ∀ b' ∈ bs, 0 ≤ b'.quantity :=
      fun b' hb' => hq b' (List.mem_cons_of_mem _ hb')
    have hsum : 0 ≤ (bs.map (·.quantity)).sum := by
      refine List.sum_nonneg ?_
      intro x hx
      rw [List.mem_map] at hx
      obtain ⟨b', hb', rfl⟩ := hx
      exact hbs b' hb'
    by_cases hr : r ≤ 0
    · simp only [fefoGo, if_pos hr]
      simp [allocSum]
      positivity
    · simp only [fefoGo, if_neg hr, allocSum_cons, List.map_cons, List.sum_cons]
      have := ih (r - min b.quantity r) hbs
      have hmin : min b.quantity r ≤ b.quantity := min_le_left _ _
      omega

theorem fefoGo_snd_nonneg (r : Int) (L : List InventoryBatch) (hr : 0 ≤ r) :
    0 ≤ (fefoGo r L).2 := by
  induction L generalizing r with
  | nil => simpa [fefoGo] using hr
  | cons b bs ih =>
    by_cases hr0 : r ≤ 0
    · simp [fefoGo, hr0]
      omega
    · simp only [fefoGo, if_neg hr0]
      exact ih _ (by have := min_le_right b.quantity r; omega)

theorem fefoGo_exhaust (r : Int) (L : List InventoryBatch)
    (hq : ∀ b ∈ L, 0 ≤ b.quantity) (h : r ≤ (L.map (·.quantity)).sum) :
    (fefoGo r L).2 ≤ 0 := by
  induction L generalizing r with
  | nil => simpa [fefoGo] using h
  | cons b bs ih =>
    have hbs : ∀ b' ∈ bs, 0 ≤ b'.quantity :=
      fun b' hb' => hq b' (List.mem_cons_of_mem _ hb')
    have hsum : 0 ≤ (bs.map (·.quantity)).sum := by
      refine List.sum_nonneg ?_
      intro x hx
      rw [List.mem_map] at hx
      obtain ⟨b', hb', rfl⟩ := hx
      exact hbs b' hb'
    by_cases hr : r ≤ 0
    · simp [fefoGo, hr]
    · simp only [List.map_cons, List.sum_cons] at h
      simp only [fefoGo, if_neg hr]
      refine ih _ hbs ?_
      have h1 : min b.quantity r ≤ b.quantity := min_le_left _ _
      have h2 : min b.quantity r ≤ r := min_le_right _ _
      rcases le_total b.quantity r with hc | hc
      · rw [min_eq_left hc]; omega
      · rw [min_eq_right hc]; omega

theorem fefoGo_full (r : Int) (L : List InventoryBatch)
    (h : 0 < (fefoGo r L).2) :
    (fefoGo r L).1 = L.map fullEntry := by
  induction L generalizing r with
  | nil => simp [fefoGo]
  | cons b bs ih =>
    by_cases hr : r ≤ 0
    · rw [fefoGo_neg _ _ hr] at h
      omega
    · simp only [fefoGo, if_neg hr] at h ⊢
      have hfull : min b.quantity r = b.quantity := by
        have hpos : 0 < r - min b.quantity r := by
          by_contra hle
          rw [fefoGo_neg _ _ (by omega)] at h
          omega
        rcases le_total b.quantity r with hc | hc
        · exact min_eq_left hc
        · rw [min_eq_right hc] at hpos
          omega
      rw [List.map_cons, ih _ h, hfull]
      rfl

theorem fefoGo_earlier_full (r : Int) (L : List InventoryBatch)
    (hs : L.Sorted expiryLE) :
    ∀ e ∈ (fefoGo r L).1, ∀ b ∈ L, b.expiryDate < e.expiry →
      fullEntry b ∈ (fefoGo r L).1 := by
  induction L generalizing r with
  | nil => simp [fefoGo]
  | cons b0 bs ih =>
    rw [List.sorted_cons] at hs
    by_cases hr : r ≤ 0
    · simp [fefoGo, hr]
    · intro e he b hb hlt
      simp only [fefoGo, if_neg hr, List.mem_cons] at he hb ⊢
      rcases he with rfl | he
      · rcases hb with rfl | hb
        · exact absurd hlt (lt_irrefl _)
        · exact absurd hlt (not_lt.mpr (hs.1 b hb))
      · rcases hb with rfl | hb
        · left
          have hne : (fefoGo (r - min b.quantity r) bs).1 ≠ [] :=
            List.ne_nil_of_mem he
          have hpos : 0 < r - min b.quantity r := by
            by_contra hle
            rw [fefoGo_neg _ _ (by omega)] at hne
            exact hne rfl
          have hfull : min b.quantity r = b.quantity := by
            rcases le_total b.quantity r with hc | hc
            · exact min_eq_left hc
            · rw [min_eq_right hc] at hpos
              omega
          rw [fullEntry, hfull]
        · exact Or.inr (ih _ hs.2 e he b hb hlt)

theorem fefoGo_sorted (r : Int) (L : List InventoryBatch) (hs : L.Sorted expiryLE) :
    ((fefoGo r L).1).Sorted fun e e' => e.expiry ≤ e'.expiry := by
  induction L generalizing r with
  | nil => simp [fefoGo, List.Sorted]
  | cons b0 bs ih =>
    rw [List.sorted_cons] at hs
    by_cases hr : r ≤ 0
    · simp [fefoGo, hr, List.Sorted]
    · simp only [fefoGo, if_neg hr]
      rw [List.Sorted, List.pairwise_cons]
      refine ⟨?_, ih _ hs.2⟩
      intro e' he'
      obtain ⟨b', hb', _, hexp, _⟩ := fefoGo_mem _ _ e' he'
      rw [hexp]
      exact hs.1 b' hb'

theorem mem_fefoBatches (db : List InventoryBatch) (itemId : Nat) (b : InventoryBatch) :
    b ∈ fefoBatches db itemId ↔ b ∈ db ∧ b.itemId = itemId ∧ 0 < b.quantity := by
  rw [fefoBatches, List.mem_insertionSort, List.mem_filter]
  simp

theorem fefoBatches_pos (db : List InventoryBatch) (itemId : Nat) :
    ∀ b ∈ fefoBatches db itemId, 0 < b.quantity :=
  fun b hb => ((mem_fefoBatches db itemId b).mp hb).2.2

theorem fefoBatches_sorted (db : List InventoryBatch) (itemId : Nat) :
    (fefoBatches db itemId).Sorted expiryLE :=
  List.sorted_insertionSort expiryLE _

theorem fefoBatches_sum (db : List InventoryBatch) (itemId : Nat) :
    ((fefoBatches db itemId).map (·.quantity)).sum = positiveStock db itemId :=
  ((List.perm_insertionSort expiryLE _).map (·.quantity)).sum_eq

theorem allocateStockFEFO_allocation (db : List InventoryBatch) (itemId : Nat)
    (qtyNeeded : Int) :
    (allocateStockFEFO db itemId qtyNeeded).allocation =
      (fefoGo qtyNeeded (fefoBatches db itemId)).1 := by
  simp only [allocateStockFEFO]
  split <;> rfl

/-- C8: `allocateStockFEFO` is feasible exactly when the item's total
positive-quantity stock covers `qtyNeeded`; a feasible allocation sums to
`qtyNeeded` (and is empty for non-positive requests), an infeasible one
consumes the whole stock and reports the missing remainder as `shortfall`;
every allocation entry corresponds to a positive-quantity batch of the item
and takes a positive amount bounded by the batch's quantity. -/
theorem allocateStockFEFO_spec (db : List InventoryBatch) (itemId : Nat)
    (qtyNeeded : Int) :
    ((allocateStockFEFO db itemId qtyNeeded).feasible = true ↔
        qtyNeeded ≤ positiveStock db itemId) ∧
      ((allocateStockFEFO db itemId qtyNeeded).feasible = true →
        (qtyNeeded ≤ 0 → (allocateStockFEFO db itemId qtyNeeded).allocation = []) ∧
          (0 ≤ qtyNeeded →
            allocSum (allocateStockFEFO db itemId qtyNeeded).allocation = qtyNeeded)) ∧
      ((allocateStockFEFO db itemId qtyNeeded).feasible = false →
        allocSum (allocateStockFEFO db itemId qtyNeeded).allocation =
            positiveStock db itemId ∧
          (allocateStockFEFO db itemId qtyNeeded).shortfall =
            some (qtyNeeded - positiveStock db itemId)) ∧
      ∀ e ∈ (allocateStockFEFO db itemId qtyNeeded).allocation,
        ∃ b ∈ db, b.itemId = itemId ∧ 0 < b.quantity ∧ e.batchId = b.id ∧
          e.expiry = b.expiryDate ∧ 0 < e.qty ∧ e.qty ≤ b.quantity := by
  have hq1 := fefoBatches_pos db itemId
  have hq0 : ∀ b ∈ fefoBatches db itemId, 0 ≤ b.quantity :=
    fun b hb => le_of_lt (hq1 b hb)
  have hsum := fefoBatches_sum db itemId
  have halloc := allocateStockFEFO_allocation db itemId qtyNeeded
  have hent : ∀ e ∈ (allocateStockFEFO db itemId qtyNeeded).allocation,
      ∃ b ∈ db, b.itemId = itemId ∧ 0 < b.quantity ∧ e.batchId = b.id ∧
        e.expiry = b.expiryDate ∧ 0 < e.qty ∧ e.qty ≤ b.quantity := by
    intro e he
    rw [halloc] at he
    obtain ⟨b, hb, hid, hexp, _, hle⟩ := fefoGo_mem _ _ e he
    have hpos := fefoGo_qty_pos _ _ hq1 e he
    obtain ⟨hbdb, hbit, hbq⟩ := (mem_fefoBatches db itemId b).mp hb
    exact ⟨b, hbdb, hbit, hbq, hid, hexp, hpos, hle⟩
  by_cases h2 : 0 < (fefoGo qtyNeeded (fefoBatches db itemId)).2
  · have hres : allocateStockFEFO db itemId qtyNeeded =
        ⟨false, some (fefoGo qtyNeeded (fefoBatches db itemId)).2,
          (fefoGo qtyNeeded (fefoBatches db itemId)).1⟩ := by
      simp only [allocateStockFEFO]
      rw [if_pos h2]
    have hfull := fefoGo_full qtyNeeded (fefoBatches db itemId) h2
    have hsum' : allocSum (fefoGo qtyNeeded (fefoBatches db itemId)).1 =
        positiveStock db itemId := by
      rw [hfull, allocSum, List.map_map, ← hsum]
      rfl
    have hnot : ¬ qtyNeeded ≤ positiveStock db itemId := by
      intro hle
      have := fefoGo_exhaust qtyNeeded (fefoBatches db itemId) hq0 (by omega)
      omega
    refine ⟨?_, ?_, ?_, hent⟩
    · rw [hres]
      simp [hnot]
    · rw [hres]
      simp
    · intro _
      have hsnd := fefoGo_snd_eq qtyNeeded (fefoBatches db itemId)
      rw [hres]
      simp only
      refine ⟨hsum', ?_⟩
      rw [hsnd, hsum']
  · have hres : allocateStockFEFO db itemId qtyNeeded =
        ⟨true, none, (fefoGo qtyNeeded (fefoBatches db itemId)).1⟩ := by
      simp only [allocateStockFEFO]
      rw [if_neg h2]
    have hsnd := fefoGo_snd_eq qtyNeeded (fefoBatches db itemId)
    have hle : allocSum (fefoGo qtyNeeded (fefoBatches db itemId)).1 ≤
        (((fefoBatches db itemId)).map (·.quantity)).sum :=
      fefoGo_allocSum_le qtyNeeded (fefoBatches db itemId) hq0
    refine ⟨?_, ?_, ?_, hent⟩
    · rw [hres]
      simp only [true_iff]
      rw [hsum] at hle
      omega
    · intro _
      constructor
      · intro hneg
        rw [halloc, fefoGo_neg _ _ hneg]
      · intro hpos
        have hnn := fefoGo_snd_nonneg qtyNeeded (fefoBatches db itemId) hpos
        rw [halloc]
        omega
    · rw [hres]
      simp

/-- C3: `allocateStockFEFO` allocates First-Expired-First-Out: the
allocation list is ordered ascending by expiry date, and whenever a batch
contributes, every positive-quantity batch of the item with a strictly
earlier expiry date appears in the allocation fully taken. -/
theorem allocateStockFEFO_order (db : List InventoryBatch) (itemId : Nat)
    (qtyNeeded : Int) :
    ((allocateStockFEFO db itemId qtyNeeded).allocation.Sorted
        fun e e' => e.expiry ≤ e'.expiry) ∧
      ∀ e ∈ (allocateStockFEFO db itemId qtyNeeded).allocation, ∀ b ∈ db,
        b.itemId = itemId → 0 < b.quantity → b.expiryDate < e.expiry →
          fullEntry b ∈ (allocateStockFEFO db itemId qtyNeeded).allocation := by
  have halloc := allocateStockFEFO_allocation db itemId qtyNeeded
  constructor
  · rw [halloc]
    exact fefoGo_sorted _ _ (fefoBatches_sorted db itemId)
  · intro e he b hb hit hpos hlt
    rw [halloc] at he ⊢
    refine fefoGo_earlier_full _ _ (fefoBatches_sorted db itemId) e he b ?_ hlt
    exact (mem_fefoBatches db itemId b).mpr ⟨hb, hit, hpos⟩

/-- C3 witness: with two batches of item 1 (batch 2 expiring at 10 with
quantity 3, batch 1 expiring at 20), an allocation of 6 units takes the
earlier-expiring batch 2 in full. -/
theorem allocateStockFEFO_order_witness :
    fullEntry ⟨2, 1, 2, 3, 10⟩ ∈
      (allocateStockFEFO [⟨1, 1, 1, 5, 20⟩, ⟨2, 1, 2, 3, 10⟩] 1 6).allocation :=
  (allocateStockFEFO_order [⟨1, 1, 1, 5, 20⟩, ⟨2, 1, 2, 3, 10⟩] 1 6).2
    ⟨1, 3, 20, 1⟩ (by decide) ⟨2, 1, 2, 3, 10⟩ (by decide) rfl (by decide) (by decide)

/-- C8 witness: allocating 6 units out of a total stock of 8 is feasible
and the allocation sums to the requested 6 units. -/
theorem allocateStockFEFO_spec_witness :
    (allocateStockFEFO [⟨1, 1, 1, 5, 20⟩, ⟨2, 1, 2, 3, 10⟩] 1 6).feasible = true ∧
      allocSum
        (allocateStockFEFO [⟨1, 1, 1, 5, 20⟩, ⟨2, 1, 2, 3, 10⟩] 1 6).allocation = 6 :=
  have h := allocateStockFEFO_spec [⟨1, 1, 1, 5, 20⟩, ⟨2, 1, 2, 3, 10⟩] 1 6
  ⟨h.1.mpr (by decide), (h.2.1 (h.1.mpr (by decide))).2 (by decide)⟩

theorem findBatch_setBatchQty_self (batchId : Nat) (q : Int)
    (l : List InventoryBatch) (b : InventoryBatch)
    (h : findBatch batchId l = some b) :
    findBatch batchId (setBatchQty batchId q l) = some { b with quantity := q } := by
  induction l with
  | nil => simp [findBatch] at h
  | cons c cs ih =>
    by_cases hc : c.id = batchId
    · rw [findBatch, List.find?_cons_of_pos _ (by simpa using hc)] at h
      rw [setBatchQty, if_pos hc, findBatch,
        List.find?_cons_of_pos _ (by simpa using hc)]
      simp_all
    · rw [findBatch, List.find?_cons_of_neg _ (by simpa using hc)] at h
      rw [setBatchQty, if_neg hc, findBatch,
        List.find?_cons_of_neg _ (by simpa using hc)]
      exact ih h

theorem mem_setBatchQty_of_ne (batchId : Nat) (q : Int)
    (l : List InventoryBatch) (b' : InventoryBatch)
    (hmem : b' ∈ l) (hne : b'.id ≠ batchId) :
    b' ∈ setBatchQty batchId q l := by
  induction l with
  | nil => simp at hmem
  | cons c cs ih =>
    rw [List.mem_cons] at hmem
    by_cases hc : c.id = batchId
    · rw [setBatchQty, if_pos hc]
      rcases hmem with rfl | hmem
      · exact absurd hc hne
      · exact List.mem_cons_of_mem _ hmem
    · rw [setBatchQty, if_neg hc]
      rcases hmem with rfl | hmem
      · exact List.mem_cons_self _ _
      · exact List.mem_cons_of_mem _ (ih hmem)

theorem length_setBatchQty (batchId : Nat) (q : Int) (l : List InventoryBatch) :
    (setBatchQty batchId q l).length = l.length := by
  induction l with
  | nil => rfl
  | cons c cs ih =>
    rw [setBatchQty]
    split <;> simp [ih]

/-- C9: `adjustStock` is atomic: a missing batch or a negative resulting
quantity is rejected with status 400 and leaves both the batch table and
the transaction log untouched; otherwise the batch's quantity becomes
`batch.quantity + quantityChange`, all other batches survive unchanged,
and exactly one ADJUSTMENT transaction record is appended. -/
theorem adjustStock_atomic (st : DBState) (itemId batchId : Nat)
    (quantityChange : Int) (reason : Option String) :
    (findBatch batchId st.batches = none →
        (adjustStock st itemId batchId quantityChange reason).status = 400 ∧
          (adjustStock st itemId batchId quantityChange reason).state = st) ∧
      (∀ b, findBatch batchId st.batches = some b →
        b.quantity + quantityChange < 0 →
          (adjustStock st itemId batchId quantityChange reason).status = 400 ∧
            (adjustStock st itemId batchId quantityChange reason).state = st) ∧
      ∀ b, findBatch batchId st.batches = some b →
        0 ≤ b.quantity + quantityChange →
          (adjustStock st itemId batchId quantityChange reason).status = 200 ∧
            findBatch batchId
                (adjustStock st itemId batchId quantityChange reason).state.batches =
              some { b with quantity := b.quantity + quantityChange } ∧
            (∀ b' ∈ st.batches, b'.id ≠ batchId →
              b' ∈ (adjustStock st itemId batchId quantityChange reason).state.batches) ∧
            (adjustStock st itemId batchId quantityChange reason).state.batches.length =
              st.batches.length ∧
            (adjustStock st itemId batchId quantityChange reason).state.txns =
              st.txns ++ [⟨itemId, batchId, "ADJUSTMENT", quantityChange,
                reason.getD "MANUAL"⟩] := by
  refine ⟨?_, ?_, ?_⟩
  · intro h
    simp [adjustStock, h]
  · intro b hb hneg
    simp [adjustStock, hb, hneg]
  · intro b hb hnonneg
    have hneg' : ¬ b.quantity + quantityChange < 0 := by omega
    simp only [adjustStock, hb, hneg', if_false, ite_false]
    refine ⟨trivial, ?_, ?_, ?_, trivial⟩
    · exact findBatch_setBatchQty_self batchId _ st.batches b hb
    · intro b' hb' hne
      exact mem_setBatchQty_of_ne batchId _ st.batches b' hb' hne
    · exact length_setBatchQty batchId _ st.batches

/-- C9 witness: on a one-batch database, a negative-overshoot adjustment is
rejected with the state unchanged, and a valid adjustment of -2 yields
status 200, quantity 3 and a single appended ADJUSTMENT record. -/
theorem adjustStock_atomic_witness :
    ((adjustStock ⟨[⟨1, 1, 1, 5, 20⟩], []⟩ 1 1 (-9) none).status = 400 ∧
        (adjustStock ⟨[⟨1, 1, 1, 5, 20⟩], []⟩ 1 1 (-9) none).state =
          ⟨[⟨1, 1, 1, 5, 20⟩], []⟩) ∧
      (adjustStock ⟨[⟨1, 1, 1, 5, 20⟩], []⟩ 1 1 (-2) none).status = 200 ∧
        (adjustStock ⟨[⟨1, 1, 1, 5, 20⟩], []⟩ 1 1 (-2) none).state.txns =
          [⟨1, 1, "ADJUSTMENT", -2, "MANUAL"⟩] :=
  have h400 := (adjustStock_atomic ⟨[⟨1, 1, 1, 5, 20⟩], []⟩ 1 1 (-9) none).2.1
    ⟨1, 1, 1, 5, 20⟩ (by decide) (by decide)
  have h200 := (adjustStock_atomic ⟨[⟨1, 1, 1, 5, 20⟩], []⟩ 1 1 (-2) none).2.2
    ⟨1, 1, 1, 5, 20⟩ (by decide) (by decide)
  ⟨h400, h200.1, by rw [h200.2.2.2.2]; rfl⟩

/-- C4: `Forecaster.predict` returns a non-negative predicted demand for
every sales history and horizon: the prediction is the `max 0` clamp of
the raw value of whichever path was chosen (`rawForecast` branches exactly
as `predict` does), so the clamp is the identical operation on the model
path and the fallback path. -/
theorem predict_nonneg (h : List SalesRecord) (horizon : Nat) :
    (predict h horizon).predictedDemand = max 0 (rawForecast h horizon) ∧
      ((predict h horizon).method = ForecastMethod.MODEL ↔
        minHistoryDays ≤ distinctDays h) ∧
      0 ≤ (predict h horizon).predictedDemand := by
  rw [predict, rawForecast]
  by_cases hc : minHistoryDays ≤ distinctDays h
  · rw [if_pos hc, if_pos hc]
    exact ⟨rfl, by simp [hc], le_max_left _ _⟩
  · rw [if_neg hc, if_neg hc]
    refine ⟨rfl, ?_, le_max_left _ _⟩
    simp [hc]

theorem assignRanks_length (u : Urgency) (i : Nat) (ss : List Supplier) :
    (assignRanks u i ss).length = ss.length := by
  induction ss generalizing i with
  | nil => rfl
  | cons s ss ih => simp [assignRanks, ih]

theorem assignRanks_ranks (u : Urgency) (i : Nat) (ss : List Supplier) :
    (assignRanks u i ss).map (·.rank) = List.range' i ss.length := by
  induction ss generalizing i with
  | nil => rfl
  | cons s ss ih =>
    rw [assignRanks, List.map_cons, List.length_cons, List.range'_succ]
    simp [ih]

theorem assignRanks_ids (u : Urgency) (i : Nat) (ss : List Supplier) :
    (assignRanks u i ss).map (·.supplierId) = ss.map (·.supplierId) := by
  induction ss generalizing i with
  | nil => rfl
  | cons s ss ih => simp [assignRanks, ih]

theorem assignRanks_mem (u : Urgency) (i : Nat) (ss : List Supplier) :
    ∀ e ∈ assignRanks u i ss, ∃ s ∈ ss, e.supplierId = s.supplierId ∧
      e.score = supplierRawScore u s := by
  induction ss generalizing i with
  | nil => simp [assignRanks]
  | cons s ss ih =>
    intro e he
    rw [assignRanks, List.mem_cons] at he
    rcases he with rfl | he
    · exact ⟨s, List.mem_cons_self _ _, rfl, rfl⟩
    · obtain ⟨s', hs', h⟩ := ih _ e he
      exact ⟨s', List.mem_cons_of_mem _ hs', h⟩

theorem assignRanks_sorted (u : Urgency) (i : Nat) (ss : List Supplier)
    (hs : ss.Pairwise (rankRel u)) :
    (assignRanks u i ss).Pairwise
      (fun a b => b.score < a.score ∨ (a.score = b.score ∧ a.supplierId ≤ b.supplierId)) := by
  induction ss generalizing i with
  | nil => simp [assignRanks]
  | cons s ss ih =>
    rw [List.pairwise_cons] at hs
    rw [assignRanks, List.pairwise_cons]
    refine ⟨?_, ih _ hs.2⟩
    intro e he
    obtain ⟨s', hs', hid, hsc⟩ := assignRanks_mem u _ ss e he
    have hrel := hs.1 s' hs'
    rw [rankRel] at hrel
    simp only [hsc, hid]
    exact hrel

/-- C5: `SupplierRanker.rank` signals `NoSuppliersFound` exactly on an
empty candidate set; on a non-empty set it returns one scored entry per
candidate, with unique contiguous 1-based ranks, sorted descending by
score with ties broken by ascending supplier id. -/
theorem rank_spec (u : Urgency) (cands : List Supplier) :
    (rank u cands = Except.error RankError.NoSuppliersFound ↔ cands = []) ∧
      ∀ l, rank u cands = Except.ok l →
        l.length = cands.length ∧
          l.map (·.rank) = List.range' 1 cands.length ∧
          (l.map (·.supplierId)).Perm (cands.map (·.supplierId)) ∧
          l.Pairwise
            (fun a b => b.score < a.score ∨
              (a.score = b.score ∧ a.supplierId ≤ b.supplierId)) := by
  constructor
  · cases cands with
    | nil => simp [rank]
    | cons c cs => simp [rank]
  · intro l hl
    cases cands with
    | nil => simp [rank] at hl
    | cons c cs =>
      rw [rank] at hl
      rw [if_neg (by simp)] at hl
      obtain rfl := Except.ok.inj hl
      refine ⟨?_, ?_, ?_, ?_⟩
      · rw [assignRanks_length, List.length_insertionSort]
      · rw [assignRanks_ranks, List.length_insertionSort]
      · rw [assignRanks_ids]
        exact (List.perm_insertionSort _ _).map _
      · exact assignRanks_sorted u 1 _ (List.sorted_insertionSort _ _)

/-- C5 witness: the empty candidate set is rejected, and a two-candidate
set yields a ranking of length 2 with ranks [1, 2]. -/
theorem rank_spec_witness :
    rank Urgency.NORMAL ([] : List Supplier) =
        Except.error RankError.NoSuppliersFound ∧
      ∃ l, rank Urgency.NORMAL
          [⟨1, none, none, none⟩, ⟨2, some 1, some 1, some 1⟩] = Except.ok l ∧
        l.length = 2 ∧ l.map (·.rank) = List.range' 1 2 := by
  refine ⟨(rank_spec Urgency.NORMAL []).1.mpr rfl, ?_⟩
  cases hok : rank Urgency.NORMAL
      [⟨1, none, none, none⟩, ⟨2, some 1, some 1, some 1⟩] with
  | error e =>
    cases e
    exact absurd ((rank_spec _ _).1.mp hok) (by simp)
  | ok l =>
    have h := (rank_spec Urgency.NORMAL
      [⟨1, none, none, none⟩, ⟨2, some 1, some 1, some 1⟩]).2 l hok
    exact ⟨l, rfl, h.1, h.2.1⟩

/-- C6: for every historical sample size, the stuck-task rule emits a
STUCK_TASK decision with URGENT urgency for a task exactly when the task
is "in progress" and its elapsed time has reached 2× its expected
duration, the boundary case included. -/
theorem stuckTask_rule (durationHistory : List ℚ) (now : ℚ) (tasks : List Task)
    (t : Task) (ht : t ∈ tasks) (hids : (tasks.map (·.taskId)).Nodup) :
    (stuckDecision t ∈ taskDecisions durationHistory now tasks ↔
        t.status = TaskStatus.inProgress ∧
          2 * t.expectedDurationMinutes ≤ now - t.startedAt) ∧
      (stuckDecision t).dtype = DecisionType.STUCK_TASK ∧
      (stuckDecision t).urgency = Urgency.URGENT := by
  refine ⟨⟨?_, ?_⟩, rfl, rfl⟩
  · intro hmem
    rw [taskDecisions, List.mem_append] at hmem
    rcases hmem with hmem | hmem
    · exfalso
      rw [bottleneckDecisions] at hmem
      split at hmem
      · simp at hmem
      · rw [List.mem_map] at hmem
        obtain ⟨t', _, ht'⟩ := hmem
        exact DecisionType.noConfusion (congrArg Decision.dtype ht')
    · rw [stuckTaskDecisions, List.mem_map] at hmem
      obtain ⟨t', ht'mem, ht'eq⟩ := hmem
      rw [List.mem_filter] at ht'mem
      have hcond := of_decide_eq_true ht'mem.2
      have hid : t'.taskId = t.taskId := congrArg Decision.taskId ht'eq
      have heq : t' = t := List.inj_on_of_nodup_map hids ht'mem.1 ht hid
      subst heq
      rw [stuckMultiplier] at hcond
      exact ⟨hcond.1, hcond.2⟩
  · intro hcond
    rw [taskDecisions, List.mem_append]
    right
    rw [stuckTaskDecisions, List.mem_map]
    refine ⟨t, List.mem_filter.mpr ⟨ht, decide_eq_true ?_⟩, rfl⟩
    exact ⟨hcond.1, by rw [stuckMultiplier]; exact hcond.2⟩

/-- C6 witness: a task at exactly the 2× boundary (expected 30 minutes,
elapsed 60) is flagged, with an empty historical sample. -/
theorem stuckTask_rule_witness :
    stuckDecision ⟨1, TaskStatus.inProgress, 0, 30⟩ ∈
      taskDecisions [] 60 [⟨1, TaskStatus.inProgress, 0, 30⟩] :=
  ((stuckTask_rule [] 60 [⟨1, TaskStatus.inProgress, 0, 30⟩]
      ⟨1, TaskStatus.inProgress, 0, 30⟩ (List.mem_singleton.mpr rfl)
      (by simp)).1).mpr ⟨rfl, by norm_num⟩

theorem runEvents_aux (evs : List CycleEvent) (s : OrchState) (hs : s.active ≤ 1) :
    (evs.foldl (fun s e => (cycleStep s e).1) s).active ≤ 1 := by
  induction evs generalizing s with
  | nil => exact hs
  | cons e es ih =>
    refine ih _ ?_
    cases e with
    | trigger =>
      by_cases h : s.active = 0
      · simp [cycleStep, h]
      · simp [cycleStep, h]
        omega
    | finish =>
      simp only [cycleStep]
      omega

/-- C7: across every sequence of cycle triggers and completions, at most
one cycle is ever executing, and a trigger arriving while a cycle is in
flight is rejected with an "already running" status, leaving the state
unchanged (no second simultaneous execution). -/
theorem cycle_single_flight (evs : List CycleEvent) :
    (runEvents evs).active ≤ 1 ∧
      ∀ s : OrchState, 1 ≤ s.active →
        cycleStep s CycleEvent.trigger = (s, some TriggerStatus.alreadyRunning) := by
  constructor
  · exact runEvents_aux evs initialOrchState (by decide)
  · intro s hs
    simp only [cycleStep]
    rw [if_neg (by omega)]

/-- C7 witness: two back-to-back triggers leave at most one cycle active,
and a trigger against a running cycle is rejected. -/
theorem cycle_single_flight_witness :
    (runEvents [CycleEvent.trigger, CycleEvent.trigger]).active ≤ 1 ∧
      cycleStep ⟨1⟩ CycleEvent.trigger = (⟨1⟩, some TriggerStatus.alreadyRunning) :=
  ⟨(cycle_single_flight [CycleEvent.trigger, CycleEvent.trigger]).1,
   (cycle_single_flight []).2 ⟨1⟩ (by decide)⟩

end JaduMsme
